import Mathlib

/-!
Verification of the reconciliation engine of `src/main.py` (price-comparison
app for auto-part inventories).

The embedding models:
* cell values (`PyVal`): missing/NaN, numeric, or string — the three shapes a
  pandas cell can take here; numbers are modelled as rationals;
* `clean_price` (main.py lines 17-36) including the regex strip and Python
  `float()` parsing of the cleaned string;
* `normalize_columns` (lines 38-84) as explicit state passing: it returns the
  caller's table after the in-place header mutation, the returned table, and
  the success flag;
* `calculate_text_similarity` (lines 86-90), i.e. difflib's
  `SequenceMatcher(None, a, b).ratio()` with its default autojunk behaviour,
  embedded in full (seed chains, extension phases, matching-block recursion);
* the reconciliation in `main` (lines 158-184): the pandas outer merge on
  `Clave` split into matched / left-only / right-only parts, and the price
  delta columns.
-/

namespace Comparativas

/-- A pandas cell value: missing (`NaN`/`None`), numeric, or string.
Numbers are modelled as rationals. -/
inductive PyVal where
  | none
  | num (q : ℚ)
  | str (s : String)
deriving DecidableEq, Repr

/-- Characters kept by `re.sub(r'[^0-9.-]', '', s)` in `clean_price`:
ASCII digits, the decimal point, and the minus sign. -/
def keepChar (c : Char) : Bool :=
  c.isDigit || c = '.' || c = '-'

/-- Value of a list of decimal digit characters (most significant first). -/
def natOfDigits (cs : List Char) : ℕ :=
  cs.foldl (fun n c => n * 10 + (c.toNat - 48)) 0

/-- Python `float()` applied to an unsigned string made of the surviving
characters: digits with at most one decimal point, at least one digit in
total; anything else is a parse failure. -/
def parseUnsigned (cs : List Char) : Option ℚ :=
  let ip := cs.takeWhile (fun c => c ≠ '.')
  let rest := cs.dropWhile (fun c => c ≠ '.')
  match rest with
  | [] =>
      if ip ≠ [] && ip.all Char.isDigit then some (natOfDigits ip) else Option.none
  | _ :: fp =>
      if (ip ≠ [] || fp ≠ []) && ip.all Char.isDigit && fp.all Char.isDigit
          && fp.all (fun c => c ≠ '.') then
        some ((natOfDigits ip : ℚ) + (natOfDigits fp : ℚ) / (10 : ℚ) ^ fp.length)
      else Option.none

/-- Python `float()` on a cleaned string (characters drawn from digits, dot,
minus): an optional leading minus sign, then an unsigned float literal. -/
def parseFloat (cs : List Char) : Option ℚ :=
  match cs with
  | '-' :: rest => (parseUnsigned rest).map (fun q => -q)
  | _ => parseUnsigned cs

/-- `clean_price` (main.py lines 17-36).  `pd.isna` is true exactly on the
missing value in this model; `val == ""` only ever holds for the empty
string; numeric values pass through; strings are stripped by the regex and
parsed, with `0.0` on `ValueError`. -/
def clean_price : PyVal → ℚ
  | PyVal.none => 0
  | PyVal.num q => q
  | PyVal.str s =>
      if s = "" then 0
      else
        match parseFloat (s.data.filter keepChar) with
        | some q => q
        | Option.none => 0

/-- `Series.round(2)` (numpy half-to-even rounding) on the rational model. -/
def round2 (q : ℚ) : ℚ :=
  let x := q * 100
  let f := ⌊x⌋
  let r := x - (f : ℚ)
  let n : ℤ :=
    if r < 1/2 then f
    else if r > 1/2 then f + 1
    else if f % 2 = 0 then f else f + 1
  (n : ℚ) / 100

/-- A raw table as handed to `normalize_columns`: a header row of string
labels and row-major cells.  (`pd.read_excel` produces string headers here;
`astype(str)` on the labels is the identity in this model.) -/
structure RawTable where
  headers : List String
  rows : List (List PyVal)
deriving DecidableEq, Repr

/-- Accepted spellings for the key column, in resolution order
(main.py line 48). -/
def claveCols : List String := ["Clave", "clave", "CLAVE", "Codigo", "codigo", "SKU", "sku"]

/-- Accepted spellings for the description column (line 55). -/
def descCols : List String := ["Descripción", "Descripcion", "descripcion", "Nombre", "nombre"]

/-- Accepted spellings for the price column (line 62). -/
def priceCols : List String := ["Precio", "precio", "PRECIO", "Costo", "costo"]

/-- First candidate spelling present among the headers (`for c in cols: if c
in df.columns: ...; break`). -/
def findCol (cands : List String) (headers : List String) : Option String :=
  cands.find? (fun c => decide (c ∈ headers))

/-- Python `str.strip()` on a character list: drop leading and trailing
whitespace. -/
def stripList (cs : List Char) : List Char :=
  (((cs.dropWhile Char.isWhitespace).reverse).dropWhile Char.isWhitespace).reverse

/-- Python `str.strip()` on a string. -/
def stripStr (s : String) : String := String.mk (stripList s.data)

/-- pandas `astype(str)` on a cell: `NaN` renders as the string `"nan"`;
the rendering of numbers is abstracted by `toString` on the rational (no
claim depends on the numeral text). -/
def pyStr : PyVal → String
  | PyVal.none => "nan"
  | PyVal.num q => toString q
  | PyVal.str s => s

/-- Cell of a row at a column index (rows are rectangular in pandas; a
missing cell reads as `NaN`). -/
def cellAt (row : List PyVal) (i : ℕ) : PyVal := row.getD i PyVal.none

/-- The canonical-row transform applied to each input row on successful
normalization: `Clave` is `astype(str).str.strip()` of the key cell,
`Descripcion` is `astype(str)` of the description cell (`""` column when no
description header resolved), `Precio` is `clean_price` then `round(2)` of
the price cell (`0.0` column when no price header resolved). -/
def normRow (hs : List String) (ck : String) (dk pk : Option String)
    (r : List PyVal) : List PyVal :=
  [ PyVal.str (stripStr (pyStr (cellAt r (hs.indexOf ck)))),
    PyVal.str (match dk with
               | some dc => pyStr (cellAt r (hs.indexOf dc))
               | Option.none => ""),
    PyVal.num (round2 (clean_price (match pk with
               | some pc => cellAt r (hs.indexOf pc)
               | Option.none => PyVal.num 0))) ]

/-- `normalize_columns` (main.py lines 38-84), with the in-place header
mutation made explicit: the result is `(caller, returned, ok)` where
`caller` is the state of the argument object after the call (line 43
reassigns `df.columns` on the caller's object), `returned` is the returned
table and `ok` the success flag.  On failure the header-stripped input is
returned unchanged; on success the returned table has exactly the columns
`Clave`, `Descripcion`, `Precio` with coerced values.  When several headers
share the resolved name, the first occurrence is read (model choice for the
pandas duplicate-label edge case, which the claims do not exercise). -/
def normalize_columns (df : RawTable) : RawTable × RawTable × Bool :=
  let hs := df.headers.map stripStr
  let caller : RawTable := ⟨hs, df.rows⟩
  match findCol claveCols hs with
  | Option.none => (caller, caller, false)
  | some ck =>
      let dk := findCol descCols hs
      let pk := findCol priceCols hs
      (caller,
       ⟨["Clave", "Descripcion", "Precio"], df.rows.map (normRow hs ck dk pk)⟩,
       true)

/-- A canonical record: the three semantic fields of a normalized row. -/
structure CRecord where
  clave : String
  descripcion : String
  precio : ℚ
deriving DecidableEq, Repr

/-- Key column of a canonical table. -/
def keysOf (t : List CRecord) : List String := t.map (fun r => r.clave)

/-- The `_merge == 'both'` rows of
`pd.merge(df_a, df_b, on='Clave', how='outer', indicator=True)`
(main.py lines 158-161): one row per pair of an A-row and a B-row with equal
key (pandas joins duplicate keys as a per-key cross product). -/
def matchesOf (A B : List CRecord) : List (CRecord × CRecord) :=
  A.flatMap (fun ra => (B.filter (fun rb => rb.clave = ra.clave)).map (fun rb => (ra, rb)))

/-- The `_merge == 'left_only'` rows (line 169): rows of A whose key occurs
nowhere in B. -/
def onlyA (A B : List CRecord) : List CRecord :=
  A.filter (fun ra => !(B.any (fun rb => rb.clave = ra.clave)))

/-- The `_merge == 'right_only'` rows (line 172): rows of B whose key occurs
nowhere in A. -/
def onlyB (A B : List CRecord) : List CRecord :=
  B.filter (fun rb => !(A.any (fun ra => ra.clave = rb.clave)))

/-- `Diferencia $` for a matched pair (line 162): the price difference
rounded to two decimals. -/
def diffAbs (ra rb : CRecord) : ℚ := round2 (rb.precio - ra.precio)

/-- `Diferencia %` for a matched pair (line 163): the rounded difference as
a percentage of the A price, defined as `0` when the A price is `0`. -/
def diffPct (ra rb : CRecord) : ℚ :=
  if ra.precio ≠ 0 then diffAbs ra rb / ra.precio * 100 else 0

/-!
difflib `SequenceMatcher(None, a, b)` as called from
`calculate_text_similarity`.  With `isjunk=None` the junk set `bjunk` is
empty; the default `autojunk=True` removes "popular" elements from the
seed index `b2j` when `b` has at least 200 elements.
-/

/-- The popularity threshold `ntest = len(b) // 100 + 1` from
`SequenceMatcher.__chain_b`. -/
def ntest (b : List Char) : ℕ := b.length / 100 + 1

/-- Autojunk: an element of `b` is popular when `b` has at least 200
elements and the element occurs more than `ntest` times. -/
def isPopular (b : List Char) (c : Char) : Bool :=
  decide (200 ≤ b.length) && decide (ntest b < b.count c)

/-- Ascending indices of occurrences of `c` in `b`. -/
def idxList (b : List Char) (c : Char) : List ℕ :=
  (List.range b.length).filter (fun j => b.get? j = some c)

/-- `b2j.get(c, [])`: the occurrence indices, with popular elements purged. -/
def b2j (b : List Char) (c : Char) : List ℕ :=
  if isPopular b c then [] else idxList b c

/-- `self.bjunk.__contains__`: with `isjunk=None` the junk set is empty. -/
def bjunkMem (_ : Char) : Bool := false

/-- The running best match of `find_longest_match`:
`besti`, `bestj`, `bestsize`. -/
structure Best where
  bi : ℕ
  bj : ℕ
  bs : ℕ
deriving DecidableEq, Repr

/-- One iteration of the inner loop of `find_longest_match`:
`k = newj2len[j] = j2len.get(j-1, 0) + 1` (reading the previous row's map
`old`), updating the best on strict improvement. -/
def seedInner (old : ℕ → ℕ) (i : ℕ) (acc : (ℕ → ℕ) × Best) (j : ℕ) :
    (ℕ → ℕ) × Best :=
  let k := (if j = 0 then 0 else old (j - 1)) + 1
  let nmap : ℕ → ℕ := fun j2 => if j2 = j then k else acc.1 j2
  if acc.2.bs < k then (nmap, ⟨i + 1 - k, j + 1 - k, k⟩) else (nmap, acc.2)

/-- One iteration of the outer loop of `find_longest_match`: row `i`,
iterating `j` over `b2j[a[i]]` restricted to `[blo, bhi)` (the `continue`
and `break` on the ascending index list), starting from a fresh `newj2len`. -/
def seedStep (a b : List Char) (blo bhi : ℕ) (st : (ℕ → ℕ) × Best) (i : ℕ) :
    (ℕ → ℕ) × Best :=
  ((b2j b (a.getD i ' ')).filter (fun j => blo ≤ j && j < bhi)).foldl
    (seedInner st.1 i) ((fun _ => 0), st.2)

/-- The seed phase of `find_longest_match`: the chain-building double loop
over rows `alo ≤ i < ahi`, starting from `besti, bestj, bestsize = alo, blo, 0`. -/
def seedLoop (a b : List Char) (alo ahi blo bhi : ℕ) : Best :=
  ((List.range' alo (ahi - alo)).foldl (seedStep a b blo bhi)
    ((fun _ => 0), ⟨alo, blo, 0⟩)).2

/-- Backwards-extension loop body: `fuel` starts at `bi`; the guard
`alo < bi` fails no later than the fuel runs out (each pass decrements
`bi`), so the fuel never cuts the loop short and the function equals the
unbounded `while` loop. -/
def extendBackAux (a b : List Char) (alo blo : ℕ) : ℕ → ℕ → ℕ → ℕ → ℕ × ℕ × ℕ
  | 0, bi, bj, bs => (bi, bj, bs)
  | fuel + 1, bi, bj, bs =>
      if alo < bi ∧ blo < bj ∧ bjunkMem (b.getD (bj - 1) ' ') = false
          ∧ a.getD (bi - 1) ' ' = b.getD (bj - 1) ' ' then
        extendBackAux a b alo blo fuel (bi - 1) (bj - 1) (bs + 1)
      else (bi, bj, bs)

/-- First extension loop of `find_longest_match`: grow the best match
backwards over non-junk equal elements. -/
def extendBack (a b : List Char) (alo blo bi bj bs : ℕ) : ℕ × ℕ × ℕ :=
  extendBackAux a b alo blo bi bi bj bs

/-- Forwards-extension loop body: `fuel` starts at `ahi - (bi + bs)`; the
guard `bi + bs < ahi` fails exactly when the fuel runs out, so the function
equals the unbounded `while` loop. -/
def extendFwdAux (a b : List Char) (ahi bhi bi bj : ℕ) : ℕ → ℕ → ℕ
  | 0, bs => bs
  | fuel + 1, bs =>
      if bi + bs < ahi ∧ bj + bs < bhi ∧ bjunkMem (b.getD (bj + bs) ' ') = false
          ∧ a.getD (bi + bs) ' ' = b.getD (bj + bs) ' ' then
        extendFwdAux a b ahi bhi bi bj fuel (bs + 1)
      else bs

/-- Second extension loop of `find_longest_match`: grow the best match
forwards over non-junk equal elements. -/
def extendFwd (a b : List Char) (ahi bhi bi bj bs : ℕ) : ℕ :=
  extendFwdAux a b ahi bhi bi bj (ahi - (bi + bs)) bs

/-- Backwards junk-extension loop body (third `while` loop). -/
def extendBackJunkAux (a b : List Char) (alo blo : ℕ) : ℕ → ℕ → ℕ → ℕ → ℕ × ℕ × ℕ
  | 0, bi, bj, bs => (bi, bj, bs)
  | fuel + 1, bi, bj, bs =>
      if alo < bi ∧ blo < bj ∧ bjunkMem (b.getD (bj - 1) ' ') = true
          ∧ a.getD (bi - 1) ' ' = b.getD (bj - 1) ' ' then
        extendBackJunkAux a b alo blo fuel (bi - 1) (bj - 1) (bs + 1)
      else (bi, bj, bs)

/-- Third extension loop: grow backwards over junk elements.  With
`isjunk=None` the junk set is empty, so this never fires. -/
def extendBackJunk (a b : List Char) (alo blo bi bj bs : ℕ) : ℕ × ℕ × ℕ :=
  extendBackJunkAux a b alo blo bi bi bj bs

/-- Forwards junk-extension loop body (fourth `while` loop). -/
def extendFwdJunkAux (a b : List Char) (ahi bhi bi bj : ℕ) : ℕ → ℕ → ℕ
  | 0, bs => bs
  | fuel + 1, bs =>
      if bi + bs < ahi ∧ bj + bs < bhi ∧ bjunkMem (b.getD (bj + bs) ' ') = true
          ∧ a.getD (bi + bs) ' ' = b.getD (bj + bs) ' ' then
        extendFwdJunkAux a b ahi bhi bi bj fuel (bs + 1)
      else bs

/-- Fourth extension loop: grow forwards over junk elements (never fires,
as the junk set is empty). -/
def extendFwdJunk (a b : List Char) (ahi bhi bi bj bs : ℕ) : ℕ :=
  extendFwdJunkAux a b ahi bhi bi bj (ahi - (bi + bs)) bs

/-- `find_longest_match(alo, ahi, blo, bhi)`: seed phase followed by the
four extension loops. -/
def findLongestMatch (a b : List Char) (alo ahi blo bhi : ℕ) : Best :=
  let s := seedLoop a b alo ahi blo bhi
  let e1 := extendBack a b alo blo s.bi s.bj s.bs
  let s2 := extendFwd a b ahi bhi e1.1 e1.2.1 e1.2.2
  let e3 := extendBackJunk a b alo blo e1.1 e1.2.1 s2
  let s4 := extendFwdJunk a b ahi bhi e3.1 e3.2.1 e3.2.2
  ⟨e3.1, e3.2.1, s4⟩

/-- Total matched size over `get_matching_blocks`: the recursion of
`find_longest_match` over sub-windows.  Only the sum of block sizes feeds
`ratio()`, and it is independent of the queue order, so the recursion is
written directly; `fuel` dominates the recursion depth. -/
def matchesTotalF (a b : List Char) : ℕ → ℕ → ℕ → ℕ → ℕ → ℕ
  | 0, _, _, _, _ => 0
  | fuel + 1, alo, ahi, blo, bhi =>
      let m := findLongestMatch a b alo ahi blo bhi
      if m.bs = 0 then 0
      else
        m.bs + matchesTotalF a b fuel alo m.bi blo m.bj
             + matchesTotalF a b fuel (m.bi + m.bs) ahi (m.bj + m.bs) bhi

/-- `sum(triple[-1] for triple in get_matching_blocks())` over the full
windows. -/
def matchesTotal (a b : List Char) : ℕ :=
  matchesTotalF a b (a.length + b.length + 1) 0 a.length 0 b.length

/-- `ratio()`, via `_calculate_ratio`: `2*M/T`, and `1.0` when both
sequences are empty. -/
def ratioQ (a b : List Char) : ℚ :=
  if a.length + b.length = 0 then 1
  else 2 * (matchesTotal a b : ℚ) / ((a.length + b.length : ℕ) : ℚ)

/-- `str.lower()` modelled as the character-wise lowering of the string. -/
def lowerList (s : String) : List Char := s.data.map Char.toLower

/-- `calculate_text_similarity` (main.py lines 86-90): `0.0` when either
string is empty (falsy), otherwise the sequence-matcher ratio of the
lower-cased strings scaled to a percentage. -/
def calculate_text_similarity (s1 s2 : String) : ℚ :=
  if s1 = "" || s2 = "" then 0
  else ratioQ (lowerList s1) (lowerList s2) * 100

/-- The chain value computed by the inner loop at column `j`, reading the
previous row's map: `j2len.get(j-1, 0) + 1`. -/
def kval (old : ℕ → ℕ) (j : ℕ) : ℕ :=
  (if j = 0 then 0 else old (j - 1)) + 1

/-- Window bounds of a best match: it lies inside `[alo, ahi) × [blo, bhi)`. -/
def BestInv (alo ahi blo bhi : ℕ) (bst : Best) : Prop :=
  alo ≤ bst.bi ∧ bst.bi + bst.bs ≤ ahi ∧ blo ≤ bst.bj ∧ bst.bj + bst.bs ≤ bhi

/-- Bounds of a row map of the seed loop: nonzero entries sit inside
`[blo, bhi)`, are at most the column-chain bound, and at most `bnd` (the
row-chain bound). -/
def MapInv (blo bhi bnd : ℕ) (m : ℕ → ℕ) : Prop :=
  ∀ j, m j ≠ 0 → blo ≤ j ∧ j < bhi ∧ m j ≤ j + 1 - blo ∧ m j ≤ bnd

/-- Length of the maximal run of non-popular characters of `t` ending at
position `i` (`0` when the character at `i` is popular). -/
def runLen (t : List Char) : ℕ → ℕ
  | 0 => if isPopular t (t.getD 0 ' ') then 0 else 1
  | i + 1 => if isPopular t (t.getD (i + 1) ' ') then 0 else runLen t i + 1

/-- Row-chain bound before processing row `i`: the run length at the
previous row (`0` before the first row). -/
def rowBound (t : List Char) : ℕ → ℕ
  | 0 => 0
  | i + 1 => runLen t i

/-! ## Theorems about the claims -/

/-- C4: price coercion is total and never raises: numeric inputs pass
through, missing values give `0.0`, strings are stripped to digits, dot and
minus and parsed, with `0.0` on parse failure; `"$1,234.56" ↦ 1234.56`,
`"abc" ↦ 0.0`, `1500 ↦ 1500.0`, missing `↦ 0.0`. -/
theorem clean_price_total_spec :
    (∀ q : ℚ, clean_price (PyVal.num q) = q) ∧
    clean_price PyVal.none = 0 ∧
    (∀ s : String, parseFloat (s.data.filter keepChar) = Option.none →
      clean_price (PyVal.str s) = 0) ∧
    (∀ (s : String) (q : ℚ), s ≠ "" →
      parseFloat (s.data.filter keepChar) = some q →
      clean_price (PyVal.str s) = q) ∧
    clean_price (PyVal.str "$1,234.56") = 123456 / 100 ∧
    clean_price (PyVal.str "abc") = 0 ∧
    clean_price (PyVal.num 1500) = 1500 := by
  refine ⟨fun q => rfl, rfl, ?_, ?_, ?_, by decide, rfl⟩
  · intro s hp
    by_cases hs : s = ""
    · simp [clean_price, hs]
    · simp [clean_price, hs, hp]
  · intro s q hs hp
    simp [clean_price, hs, hp]
  · have h : clean_price (PyVal.str "$1,234.56") = (1234 : ℚ) + 56 / 10 ^ 2 := rfl
    rw [h]; norm_num

/-- Witness for `clean_price_total_spec`: the string hypotheses are
satisfiable (a parse failure and a parse success). -/
theorem clean_price_total_spec_witness :
    clean_price (PyVal.str "x-y") = 0 ∧ clean_price (PyVal.str "a12b") = 12 := by
  constructor
  · exact clean_price_total_spec.2.2.1 "x-y" (by decide)
  · exact clean_price_total_spec.2.2.2.1 "a12b" 12 (by decide) (by decide)

/-- C3: for every matched pair the percentage difference is `0` when the A
price is `0` (the division guard, so no division is attempted), and equals
the rounded absolute difference divided by the A price times `100`
otherwise; the absolute difference is the 2-decimal rounding of
`price_b - price_a`. -/
theorem diffPct_division_guard (ra rb : CRecord) :
    (ra.precio = 0 → diffPct ra rb = 0) ∧
    (ra.precio ≠ 0 → diffPct ra rb = diffAbs ra rb / ra.precio * 100) ∧
    diffAbs ra rb = round2 (rb.precio - ra.precio) := by
  refine ⟨fun h => ?_, fun h => ?_, rfl⟩
  · simp [diffPct, h]
  · simp [diffPct, h]

/-- Witness for `diffPct_division_guard`: a zero-price-A match yields `0`,
a nonzero-price-A match yields the quotient formula. -/
theorem diffPct_division_guard_witness :
    diffPct ⟨"X", "", 0⟩ ⟨"X", "", 5⟩ = 0 ∧
    diffPct ⟨"Y", "", 2⟩ ⟨"Y", "", 3⟩ =
      diffAbs ⟨"Y", "", 2⟩ ⟨"Y", "", 3⟩ / 2 * 100 := by
  constructor
  · exact (diffPct_division_guard ⟨"X", "", 0⟩ ⟨"X", "", 5⟩).1 rfl
  · exact (diffPct_division_guard ⟨"Y", "", 2⟩ ⟨"Y", "", 3⟩).2.1 (by norm_num)

/-- C8: swap symmetry of reconciliation — the left-only rows of
`reconcile(B, A)` are exactly the right-only rows of `reconcile(A, B)`,
and conversely (the code computes both sides with the same key filter). -/
theorem reconcile_swap_symmetry (A B : List CRecord) :
    onlyA B A = onlyB A B ∧ onlyB B A = onlyA A B := by
  constructor <;> rfl

/-- C9: normalization mutates its argument — after the call the caller's
table carries the stripped headers with the original rows, and on failure
the returned table is exactly this header-stripped input, with no value
coercion applied. -/
theorem normalize_mutates_caller (df : RawTable) :
    (normalize_columns df).1 = ⟨df.headers.map stripStr, df.rows⟩ ∧
    ((normalize_columns df).2.2 = false →
      (normalize_columns df).2.1 = ⟨df.headers.map stripStr, df.rows⟩) := by
  rcases hE : findCol claveCols (df.headers.map stripStr) with _ | ck <;>
    simp [normalize_columns, hE]

/-- Witness for `normalize_mutates_caller`: a table with no recognizable
key header fails, and both the caller's object and the returned table are
the header-stripped input. -/
theorem normalize_mutates_caller_witness :
    (normalize_columns ⟨[" Foo ", "Bar"], [[PyVal.num 1, PyVal.str "x"]]⟩).2.1
      = ⟨["Foo", "Bar"], [[PyVal.num 1, PyVal.str "x"]]⟩ :=
  (normalize_mutates_caller ⟨[" Foo ", "Bar"], [[PyVal.num 1, PyVal.str "x"]]⟩).2
    (by decide)

/-- C6 counterexample: the similarity ratio is not symmetric.  On the pair
`"ab"`, `"bacb"` the matcher finds the two-character block `"ab"` inside
`"bacb"` one character at a time in one direction (total `2`) but only a
single character in the other (total `1`), because `find_longest_match`
prefers the earliest longest chain and the recursion then discards the
rest. -/
theorem similarity_not_symmetric :
    calculate_text_similarity "ab" "bacb" ≠ calculate_text_similarity "bacb" "ab" := by
  have e1 : calculate_text_similarity "ab" "bacb"
      = 2 * ((2 : ℕ) : ℚ) / ((6 : ℕ) : ℚ) * 100 := rfl
  have e2 : calculate_text_similarity "bacb" "ab"
      = 2 * ((1 : ℕ) : ℚ) / ((6 : ℕ) : ℚ) * 100 := rfl
  rw [e1, e2]
  norm_num

/-- C6 amended: similarity is symmetric when the two strings are equal or
when either is empty (both directions return `0` then); in general
`similarity(a, b)` and `similarity(b, a)` can differ. -/
theorem similarity_symm_amended (a b : String) (h : a = b ∨ a = "" ∨ b = "") :
    calculate_text_similarity a b = calculate_text_similarity b a := by
  rcases h with h | h | h <;> subst h
  · rfl
  · simp [calculate_text_similarity]
  · simp [calculate_text_similarity]

/-- Witness for `similarity_symm_amended`: an empty first string. -/
theorem similarity_symm_amended_witness :
    calculate_text_similarity "" "xy" = calculate_text_similarity "xy" "" :=
  similarity_symm_amended "" "xy" (Or.inr (Or.inl rfl))

/-- C10: on success, normalization maps each input row to its canonical
row, in order — the output has exactly as many rows as the input and no row
is dropped or deduplicated (duplicate keys and empty keys included). -/
theorem normalize_success_preserves_rows (df : RawTable)
    (h : (normalize_columns df).2.2 = true) :
    (normalize_columns df).2.1.rows.length = df.rows.length ∧
    ∃ ck, findCol claveCols (df.headers.map stripStr) = some ck ∧
      (normalize_columns df).2.1.rows = df.rows.map
        (normRow (df.headers.map stripStr) ck
          (findCol descCols (df.headers.map stripStr))
          (findCol priceCols (df.headers.map stripStr))) := by
  rcases hE : findCol claveCols (df.headers.map stripStr) with _ | ck
  · simp [normalize_columns, hE] at h
  · exact ⟨by simp [normalize_columns, hE], ck, rfl, by simp [normalize_columns, hE]⟩

/-- Witness for `normalize_success_preserves_rows`: a table with a
duplicate key and a key that strips to the empty string keeps all three
rows. -/
theorem normalize_success_preserves_rows_witness :
    (normalize_columns ⟨["codigo"],
      [[PyVal.str "A"], [PyVal.str "A"], [PyVal.str " "]]⟩).2.1.rows.length
      = ([[PyVal.str "A"], [PyVal.str "A"], [PyVal.str " "]] :
          List (List PyVal)).length :=
  (normalize_success_preserves_rows
    ⟨["codigo"], [[PyVal.str "A"], [PyVal.str "A"], [PyVal.str " "]]⟩
    (by decide)).1

/-- C7: normalization fails exactly when no stripped header equals any
accepted key spelling; a lowercase `codigo` header guarantees success; on
success the output has exactly the three canonical columns in order; an
unresolved description column is filled with the empty string and an
unresolved price column with `0.0`. -/
theorem normalize_header_resolution (df : RawTable) :
    ((normalize_columns df).2.2 = false ↔
      ∀ c ∈ claveCols, c ∉ df.headers.map stripStr) ∧
    ("codigo" ∈ df.headers.map stripStr → (normalize_columns df).2.2 = true) ∧
    ((normalize_columns df).2.2 = true →
      (normalize_columns df).2.1.headers = ["Clave", "Descripcion", "Precio"]) ∧
    ((normalize_columns df).2.2 = true →
      findCol descCols (df.headers.map stripStr) = Option.none →
      ∀ r ∈ (normalize_columns df).2.1.rows, r.getD 1 PyVal.none = PyVal.str "") ∧
    ((normalize_columns df).2.2 = true →
      findCol priceCols (df.headers.map stripStr) = Option.none →
      ∀ r ∈ (normalize_columns df).2.1.rows, r.getD 2 PyVal.none = PyVal.num 0) := by
  rcases hE : findCol claveCols (df.headers.map stripStr) with _ | ck
  · have hok : (normalize_columns df).2.2 = false := by simp [normalize_columns, hE]
    have hnone : ∀ c ∈ claveCols, c ∉ df.headers.map stripStr := by
      intro c hc hmem
      have hno := List.find?_eq_none.mp hE c hc
      simp only [decide_eq_true_eq] at hno
      exact hno hmem
    refine ⟨⟨fun _ => hnone, fun _ => hok⟩, ?_, ?_, ?_, ?_⟩
    · intro hmem
      exact absurd hmem (hnone "codigo" (by decide))
    · intro htrue
      rw [hok] at htrue
      cases htrue
    · intro htrue
      rw [hok] at htrue
      cases htrue
    · intro htrue
      rw [hok] at htrue
      cases htrue
  · have hok : (normalize_columns df).2.2 = true := by simp [normalize_columns, hE]
    refine ⟨?_, fun _ => hok, ?_, ?_, ?_⟩
    · constructor
      · intro hfalse
        rw [hok] at hfalse
        cases hfalse
      · intro hall
        have hmem := List.mem_of_find?_eq_some hE
        have hp := List.find?_some hE
        simp only [decide_eq_true_eq] at hp
        exact absurd hp (hall ck hmem)
    · intro _; simp [normalize_columns, hE]
    · intro _ hdk r hr
      simp only [normalize_columns, hE, List.mem_map] at hr
      obtain ⟨row, _, rfl⟩ := hr
      simp [normRow, hdk]
    · intro _ hpk r hr
      simp only [normalize_columns, hE, List.mem_map] at hr
      obtain ⟨row, _, rfl⟩ := hr
      simp only [normRow, hpk]
      norm_num [round2, clean_price, cellAt]

/-- Witness for `normalize_header_resolution`: a lone `codigo` column
succeeds, yields the canonical headers, and its single output row carries
the description default `""` and the price default `0.0`. -/
theorem normalize_header_resolution_witness :
    (normalize_columns ⟨["codigo"], [[PyVal.str "k1"]]⟩).2.1.headers
        = ["Clave", "Descripcion", "Precio"] ∧
    ((normalize_columns ⟨["codigo"], [[PyVal.str "k1"]]⟩).2.1.rows.getD 0 []).getD 1
        PyVal.none = PyVal.str "" ∧
    ((normalize_columns ⟨["codigo"], [[PyVal.str "k1"]]⟩).2.1.rows.getD 0 []).getD 2
        PyVal.none = PyVal.num 0 := by
  have hlen : 0 < (normalize_columns ⟨["codigo"], [[PyVal.str "k1"]]⟩).2.1.rows.length := by
    decide
  have hmem : (normalize_columns ⟨["codigo"], [[PyVal.str "k1"]]⟩).2.1.rows.getD 0 []
      ∈ (normalize_columns ⟨["codigo"], [[PyVal.str "k1"]]⟩).2.1.rows := by
    rw [List.getD_eq_getElem _ [] hlen]
    exact List.getElem_mem hlen
  exact ⟨(normalize_header_resolution ⟨["codigo"], [[PyVal.str "k1"]]⟩).2.2.1 (by decide),
    (normalize_header_resolution ⟨["codigo"], [[PyVal.str "k1"]]⟩).2.2.2.1
      (by decide) (by decide) _ hmem,
    (normalize_header_resolution ⟨["codigo"], [[PyVal.str "k1"]]⟩).2.2.2.2
      (by decide) (by decide) _ hmem⟩

lemma mem_matchKeys (A B : List CRecord) (k : String) :
    k ∈ (matchesOf A B).map (fun p => p.1.clave) ↔ k ∈ keysOf A ∧ k ∈ keysOf B := by
  simp only [matchesOf, keysOf, List.mem_map, List.mem_flatMap]
  constructor
  · rintro ⟨p, ⟨ra, hra, hp⟩, hk⟩
    simp only [List.mem_map, List.mem_filter, decide_eq_true_eq] at hp
    obtain ⟨rb, ⟨hrb, hkey⟩, rfl⟩ := hp
    exact ⟨⟨ra, hra, hk⟩, ⟨rb, hrb, by rw [hkey]; exact hk⟩⟩
  · rintro ⟨⟨ra, hra, hka⟩, ⟨rb, hrb, hkb⟩⟩
    refine ⟨(ra, rb), ⟨ra, hra, ?_⟩, hka⟩
    simp only [List.mem_map, List.mem_filter, decide_eq_true_eq]
    exact ⟨rb, ⟨hrb, by rw [hkb, hka]⟩, rfl⟩

lemma mem_onlyA_keys (A B : List CRecord) (k : String) :
    k ∈ keysOf (onlyA A B) ↔ k ∈ keysOf A ∧ k ∉ keysOf B := by
  simp only [onlyA, keysOf, List.mem_map, List.mem_filter, Bool.not_eq_true',
    List.any_eq_false, decide_eq_true_eq]
  constructor
  · rintro ⟨ra, ⟨hra, hall⟩, hk⟩
    refine ⟨⟨ra, hra, hk⟩, ?_⟩
    rintro ⟨rb, hrb, hkb⟩
    exact hall rb hrb (by rw [hkb, hk])
  · rintro ⟨⟨ra, hra, hka⟩, hno⟩
    refine ⟨ra, ⟨hra, fun rb hrb hkb => hno ⟨rb, hrb, by rw [hkb, hka]⟩⟩, hka⟩

lemma mem_onlyB_keys (A B : List CRecord) (k : String) :
    k ∈ keysOf (onlyB A B) ↔ k ∈ keysOf B ∧ k ∉ keysOf A := by
  simp only [onlyB, keysOf, List.mem_map, List.mem_filter, Bool.not_eq_true',
    List.any_eq_false, decide_eq_true_eq]
  constructor
  · rintro ⟨rb, ⟨hrb, hall⟩, hk⟩
    refine ⟨⟨rb, hrb, hk⟩, ?_⟩
    rintro ⟨ra, hra, hka⟩
    exact hall ra hra (by rw [hka, hk])
  · rintro ⟨⟨rb, hrb, hkb⟩, hno⟩
    refine ⟨rb, ⟨hrb, fun ra hra hka => hno ⟨ra, hra, by rw [hka, hkb]⟩⟩, hkb⟩

/-- C2: the key sets of the three output parts — matched keys, only-A keys,
only-B keys — are pairwise disjoint, and their union is exactly the union
of the two input key sets (full outer join on exact string key equality). -/
theorem key_sets_partition (A B : List CRecord) (k : String) :
    (k ∈ (matchesOf A B).map (fun p => p.1.clave) ↔ k ∈ keysOf A ∧ k ∈ keysOf B) ∧
    (k ∈ keysOf (onlyA A B) ↔ k ∈ keysOf A ∧ k ∉ keysOf B) ∧
    (k ∈ keysOf (onlyB A B) ↔ k ∈ keysOf B ∧ k ∉ keysOf A) ∧
    ((k ∈ (matchesOf A B).map (fun p => p.1.clave) ∨ k ∈ keysOf (onlyA A B) ∨
        k ∈ keysOf (onlyB A B)) ↔ (k ∈ keysOf A ∨ k ∈ keysOf B)) ∧
    ¬(k ∈ (matchesOf A B).map (fun p => p.1.clave) ∧ k ∈ keysOf (onlyA A B)) ∧
    ¬(k ∈ (matchesOf A B).map (fun p => p.1.clave) ∧ k ∈ keysOf (onlyB A B)) ∧
    ¬(k ∈ keysOf (onlyA A B) ∧ k ∈ keysOf (onlyB A B)) := by
  have h1 := mem_matchKeys A B k
  have h2 := mem_onlyA_keys A B k
  have h3 := mem_onlyB_keys A B k
  refine ⟨h1, h2, h3, ?_, ?_, ?_, ?_⟩ <;> simp only [h1, h2, h3] <;> tauto

/-- Witness for `key_sets_partition` at concrete one-row tables. -/
theorem key_sets_partition_witness :
    (("X" ∈ (matchesOf [⟨"X", "", 1⟩] [⟨"Y", "", 2⟩]).map (fun p => p.1.clave)
        ↔ "X" ∈ keysOf [⟨"X", "", 1⟩] ∧ "X" ∈ keysOf [⟨"Y", "", 2⟩]) ∧
      ("X" ∈ keysOf (onlyA [⟨"X", "", 1⟩] [⟨"Y", "", 2⟩])
        ↔ "X" ∈ keysOf [⟨"X", "", 1⟩] ∧ "X" ∉ keysOf [⟨"Y", "", 2⟩]) ∧
      ("X" ∈ keysOf (onlyB [⟨"X", "", 1⟩] [⟨"Y", "", 2⟩])
        ↔ "X" ∈ keysOf [⟨"Y", "", 2⟩] ∧ "X" ∉ keysOf [⟨"X", "", 1⟩]) ∧
      (("X" ∈ (matchesOf [⟨"X", "", 1⟩] [⟨"Y", "", 2⟩]).map (fun p => p.1.clave)
          ∨ "X" ∈ keysOf (onlyA [⟨"X", "", 1⟩] [⟨"Y", "", 2⟩])
          ∨ "X" ∈ keysOf (onlyB [⟨"X", "", 1⟩] [⟨"Y", "", 2⟩]))
        ↔ ("X" ∈ keysOf [⟨"X", "", 1⟩] ∨ "X" ∈ keysOf [⟨"Y", "", 2⟩])) ∧
      ¬("X" ∈ (matchesOf [⟨"X", "", 1⟩] [⟨"Y", "", 2⟩]).map (fun p => p.1.clave)
          ∧ "X" ∈ keysOf (onlyA [⟨"X", "", 1⟩] [⟨"Y", "", 2⟩])) ∧
      ¬("X" ∈ (matchesOf [⟨"X", "", 1⟩] [⟨"Y", "", 2⟩]).map (fun p => p.1.clave)
          ∧ "X" ∈ keysOf (onlyB [⟨"X", "", 1⟩] [⟨"Y", "", 2⟩])) ∧
      ¬("X" ∈ keysOf (onlyA [⟨"X", "", 1⟩] [⟨"Y", "", 2⟩])
          ∧ "X" ∈ keysOf (onlyB [⟨"X", "", 1⟩] [⟨"Y", "", 2⟩]))) :=
  key_sets_partition [⟨"X", "", 1⟩] [⟨"Y", "", 2⟩] "X"

/-- Witness for `reconcile_swap_symmetry` at concrete tables. -/
theorem reconcile_swap_symmetry_witness :
    onlyA [(⟨"Y", "", 2⟩ : CRecord)] [⟨"X", "", 1⟩]
        = onlyB [⟨"X", "", 1⟩] [⟨"Y", "", 2⟩]
      ∧ onlyB [(⟨"Y", "", 2⟩ : CRecord)] [⟨"X", "", 1⟩]
        = onlyA [⟨"X", "", 1⟩] [⟨"Y", "", 2⟩] :=
  reconcile_swap_symmetry [⟨"X", "", 1⟩] [⟨"Y", "", 2⟩]

lemma count_filter_clave (B : List CRecord) (k : String) :
    (B.filter (fun rb => rb.clave = k)).length = (keysOf B).count k := by
  induction B with
  | nil => rfl
  | cons rb B ih =>
      simp only [keysOf, List.map_cons, List.count_cons, List.filter_cons]
      by_cases h : rb.clave = k
      · simp only [keysOf] at ih
        simp [h, ih]
      · simp only [keysOf] at ih
        simp [h, ih]

lemma nodup_count_one {l : List String} {k : String} (h : l.Nodup) (hm : k ∈ l) :
    l.count k = 1 := by
  have hle := List.nodup_iff_count_le_one.mp h k
  have hpos := List.count_pos_iff.mpr hm
  omega

lemma matchesOf_nil_right (A : List CRecord) : matchesOf A [] = [] := by
  induction A with
  | nil => rfl
  | cons ra A ih =>
      simp only [matchesOf] at ih ⊢
      simp [ih]

lemma totals_left (A B : List CRecord) (hB : (keysOf B).Nodup) :
    (matchesOf A B).length + (onlyA A B).length = A.length := by
  induction A with
  | nil => rfl
  | cons ra A ih =>
      have hcons : (matchesOf (ra :: A) B).length
          = (B.filter (fun rb => rb.clave = ra.clave)).length + (matchesOf A B).length := by
        simp [matchesOf]
      by_cases h : ra.clave ∈ keysOf B
      · have hfl : (B.filter (fun rb => rb.clave = ra.clave)).length = 1 := by
          rw [count_filter_clave]
          exact nodup_count_one hB h
        have hany : B.any (fun rb => rb.clave = ra.clave) = true := by
          simp only [keysOf, List.mem_map] at h
          obtain ⟨rb, hrb, hk⟩ := h
          simp only [List.any_eq_true, decide_eq_true_eq]
          exact ⟨rb, hrb, hk⟩
        have honly : onlyA (ra :: A) B = onlyA A B := by
          simp [onlyA, List.filter_cons, hany]
        rw [hcons, hfl, honly, List.length_cons]
        omega
      · have hfl : (B.filter (fun rb => rb.clave = ra.clave)).length = 0 := by
          rw [count_filter_clave]
          exact List.count_eq_zero.mpr h
        have hany : B.any (fun rb => rb.clave = ra.clave) = false := by
          simp only [List.any_eq_false, decide_eq_true_eq]
          intro rb hrb hk
          exact h (by simp only [keysOf, List.mem_map]; exact ⟨rb, hrb, hk⟩)
        have honly : onlyA (ra :: A) B = ra :: onlyA A B := by
          simp [onlyA, List.filter_cons, hany]
        rw [hcons, hfl, honly, List.length_cons, List.length_cons]
        omega

lemma matchesOf_cons_right (A : List CRecord) (rb : CRecord) (B : List CRecord) :
    (matchesOf A (rb :: B)).length
      = (A.filter (fun ra => ra.clave = rb.clave)).length + (matchesOf A B).length := by
  induction A with
  | nil => rfl
  | cons ra A ih =>
      have h1 : (matchesOf (ra :: A) (rb :: B)).length
          = ((rb :: B).filter (fun x => x.clave = ra.clave)).length
            + (matchesOf A (rb :: B)).length := by
        simp [matchesOf]
      have h2 : (matchesOf (ra :: A) B).length
          = (B.filter (fun x => x.clave = ra.clave)).length + (matchesOf A B).length := by
        simp [matchesOf]
      by_cases h : rb.clave = ra.clave
      · rw [h1, ih, h2, List.filter_cons, List.filter_cons]
        simp [h]
        omega
      · have h' : ¬ ra.clave = rb.clave := fun hh => h hh.symm
        rw [h1, ih, h2, List.filter_cons, List.filter_cons]
        simp [h, h']
        omega

lemma totals_right (A B : List CRecord) (hA : (keysOf A).Nodup) :
    (matchesOf A B).length + (onlyB A B).length = B.length := by
  induction B with
  | nil => simp [matchesOf_nil_right, onlyB]
  | cons rb B ih =>
      by_cases h : rb.clave ∈ keysOf A
      · have hfl : (A.filter (fun ra => ra.clave = rb.clave)).length = 1 := by
          rw [count_filter_clave]
          exact nodup_count_one hA h
        have hany : A.any (fun ra => ra.clave = rb.clave) = true := by
          simp only [keysOf, List.mem_map] at h
          obtain ⟨ra, hra, hk⟩ := h
          simp only [List.any_eq_true, decide_eq_true_eq]
          exact ⟨ra, hra, hk⟩
        have honly : onlyB A (rb :: B) = onlyB A B := by
          simp [onlyB, List.filter_cons, hany]
        rw [matchesOf_cons_right, hfl, honly, List.length_cons]
        omega
      · have hfl : (A.filter (fun ra => ra.clave = rb.clave)).length = 0 := by
          rw [count_filter_clave]
          exact List.count_eq_zero.mpr h
        have hany : A.any (fun ra => ra.clave = rb.clave) = false := by
          simp only [List.any_eq_false, decide_eq_true_eq]
          intro ra hra hk
          exact h (by simp only [keysOf, List.mem_map]; exact ⟨ra, hra, hk⟩)
        have honly : onlyB A (rb :: B) = rb :: onlyB A B := by
          simp [onlyB, List.filter_cons, hany]
        rw [matchesOf_cons_right, hfl, honly, List.length_cons, List.length_cons]
        omega

/-- C1 counterexample: with a duplicated key in table B the outer merge
produces a cross product, so `total_a = 1` but `|matches| = 2` and
`|only_a| = 0` — the totals identity fails under duplicate keys. -/
theorem totals_counterexample :
    ¬ (([⟨"X", "", 1⟩] : List CRecord).length
        = (matchesOf [⟨"X", "", 1⟩] [⟨"X", "", 1⟩, ⟨"X", "", 2⟩]).length
          + (onlyA [⟨"X", "", 1⟩] [⟨"X", "", 1⟩, ⟨"X", "", 2⟩]).length ∧
       ([⟨"X", "", 1⟩, ⟨"X", "", 2⟩] : List CRecord).length
        = (matchesOf [⟨"X", "", 1⟩] [⟨"X", "", 1⟩, ⟨"X", "", 2⟩]).length
          + (onlyB [⟨"X", "", 1⟩] [⟨"X", "", 1⟩, ⟨"X", "", 2⟩]).length) := by
  intro h
  have h1 : (matchesOf ([⟨"X", "", 1⟩] : List CRecord)
      [⟨"X", "", 1⟩, ⟨"X", "", 2⟩]).length = 2 := by decide
  have h2 : (onlyA ([⟨"X", "", 1⟩] : List CRecord)
      [⟨"X", "", 1⟩, ⟨"X", "", 2⟩]).length = 0 := by decide
  rw [h1, h2] at h
  exact absurd h.1 (by decide)

/-- C1 amended: when the key values are pairwise distinct within each
table, the reported totals satisfy `total_a = |matches| + |only_a|` and
`total_b = |matches| + |only_b|`; with duplicate keys the outer merge
cross-product breaks the identity. -/
theorem totals_amended (A B : List CRecord)
    (hA : (keysOf A).Nodup) (hB : (keysOf B).Nodup) :
    A.length = (matchesOf A B).length + (onlyA A B).length ∧
    B.length = (matchesOf A B).length + (onlyB A B).length :=
  ⟨(totals_left A B hB).symm, (totals_right A B hA).symm⟩

/-- Witness for `totals_amended` on concrete duplicate-free tables. -/
theorem totals_amended_witness :
    ([⟨"X", "", 1⟩, ⟨"Y", "", 2⟩] : List CRecord).length
      = (matchesOf [⟨"X", "", 1⟩, ⟨"Y", "", 2⟩] [⟨"X", "", 3⟩, ⟨"Z", "", 4⟩]).length
        + (onlyA [⟨"X", "", 1⟩, ⟨"Y", "", 2⟩] [⟨"X", "", 3⟩, ⟨"Z", "", 4⟩]).length ∧
    ([⟨"X", "", 3⟩, ⟨"Z", "", 4⟩] : List CRecord).length
      = (matchesOf [⟨"X", "", 1⟩, ⟨"Y", "", 2⟩] [⟨"X", "", 3⟩, ⟨"Z", "", 4⟩]).length
        + (onlyB [⟨"X", "", 1⟩, ⟨"Y", "", 2⟩] [⟨"X", "", 3⟩, ⟨"Z", "", 4⟩]).length :=
  totals_amended [⟨"X", "", 1⟩, ⟨"Y", "", 2⟩] [⟨"X", "", 3⟩, ⟨"Z", "", 4⟩]
    (by decide) (by decide)

/-! ### Generic fold invariants -/

lemma foldl_preserve {σ : Type} (P : σ → Prop) (f : σ → ℕ → σ) :
    ∀ (l : List ℕ) (s : σ), P s → (∀ st j, j ∈ l → P st → P (f st j)) →
      P (l.foldl f s) := by
  intro l
  induction l with
  | nil => intro s h0 _; exact h0
  | cons x xs ih =>
      intro s h0 hstep
      exact ih (f s x) (hstep s x (List.mem_cons_self x xs) h0)
        (fun st j hj hp => hstep st j (List.mem_cons_of_mem x hj) hp)

lemma foldl_range'_ind {σ : Type} (P : ℕ → σ → Prop) (f : σ → ℕ → σ) :
    ∀ (n s : ℕ) (init : σ), P s init →
      (∀ i st, s ≤ i → i < s + n → P i st → P (i + 1) (f st i)) →
      P (s + n) ((List.range' s n).foldl f init) := by
  intro n
  induction n with
  | zero => intro s init h0 _; simpa using h0
  | succ n ih =>
      intro s init h0 hstep
      rw [show List.range' s (n + 1) = s :: List.range' (s + 1) n from rfl,
        List.foldl_cons]
      have h1 := hstep s init le_rfl (by omega) h0
      have h2 := ih (s + 1) (f init s) h1
        (fun i st hi1 hi2 hp => hstep i st (by omega) (by omega) hp)
      have he : s + (n + 1) = (s + 1) + n := by omega
      rw [he]
      exact h2

/-! ### Shape of one inner-loop step -/

lemma seedInner_fst (old : ℕ → ℕ) (i : ℕ) (acc : (ℕ → ℕ) × Best) (j j2 : ℕ) :
    (seedInner old i acc j).1 j2 = if j2 = j then kval old j else acc.1 j2 := by
  simp only [seedInner, kval]
  split <;> split <;> rfl

lemma seedInner_snd_fire (old : ℕ → ℕ) (i : ℕ) (acc : (ℕ → ℕ) × Best) (j : ℕ)
    (h : acc.2.bs < kval old j) :
    (seedInner old i acc j).2 = ⟨i + 1 - kval old j, j + 1 - kval old j, kval old j⟩ := by
  simp only [seedInner, kval] at h ⊢
  rw [if_pos h]

lemma seedInner_snd_noFire (old : ℕ → ℕ) (i : ℕ) (acc : (ℕ → ℕ) × Best) (j : ℕ)
    (h : ¬ acc.2.bs < kval old j) :
    (seedInner old i acc j).2 = acc.2 := by
  simp only [seedInner, kval] at h ⊢
  rw [if_neg h]

lemma seedInner_foldl_fst (old : ℕ → ℕ) (i : ℕ) :
    ∀ (L : List ℕ) (acc : (ℕ → ℕ) × Best) (j2 : ℕ),
      ((L.foldl (seedInner old i) acc).1) j2
        = if j2 ∈ L then kval old j2 else acc.1 j2 := by
  intro L
  induction L with
  | nil => intro acc j2; simp
  | cons x xs ih =>
      intro acc j2
      rw [List.foldl_cons, ih]
      by_cases hx : j2 ∈ xs
      · simp [hx]
      · by_cases hj : j2 = x
        · subst hj
          simp [hx, seedInner_fst]
        · simp [hx, hj, seedInner_fst]

lemma seedInner_foldl_noFire (old : ℕ → ℕ) (i : ℕ) :
    ∀ (L : List ℕ) (acc : (ℕ → ℕ) × Best),
      (∀ j ∈ L, kval old j ≤ acc.2.bs) →
      ((L.foldl (seedInner old i) acc).2) = acc.2 := by
  intro L
  induction L with
  | nil => intro acc _; rfl
  | cons x xs ih =>
      intro acc hall
      rw [List.foldl_cons]
      have hx : (seedInner old i acc x).2 = acc.2 :=
        seedInner_snd_noFire old i acc x
          (by have := hall x (List.mem_cons_self x xs); omega)
      rw [ih (seedInner old i acc x)
        (fun j hj => by rw [hx]; exact hall j (List.mem_cons_of_mem x hj))]
      exact hx

/-! ### Window bounds of the seed loop and of `find_longest_match` -/

lemma seedLoop_bounds (a b : List Char) (alo ahi blo bhi : ℕ)
    (hA : alo ≤ ahi) (hB : blo ≤ bhi) :
    BestInv alo ahi blo bhi (seedLoop a b alo ahi blo bhi) := by
  have hstep : ∀ i (st : (ℕ → ℕ) × Best), alo ≤ i → i < alo + (ahi - alo) →
      (MapInv blo bhi (i - alo) st.1 ∧ BestInv alo ahi blo bhi st.2) →
      (MapInv blo bhi (i + 1 - alo) (seedStep a b blo bhi st i).1
        ∧ BestInv alo ahi blo bhi (seedStep a b blo bhi st i).2) := by
    intro i st hi1 hi2 hp
    have hi2' : i < ahi := by omega
    have hinit : MapInv blo bhi (i + 1 - alo) (fun _ : ℕ => (0 : ℕ))
        ∧ BestInv alo ahi blo bhi st.2 := by
      refine ⟨?_, hp.2⟩
      intro j hj
      simp at hj
    have hstep2 : ∀ (st2 : (ℕ → ℕ) × Best) j,
        j ∈ ((b2j b (a.getD i ' ')).filter (fun j => blo ≤ j && j < bhi)) →
        (MapInv blo bhi (i + 1 - alo) st2.1 ∧ BestInv alo ahi blo bhi st2.2) →
        (MapInv blo bhi (i + 1 - alo) (seedInner st.1 i st2 j).1
          ∧ BestInv alo ahi blo bhi (seedInner st.1 i st2 j).2) := by
      intro st2 j hj hp2
      have hjw : blo ≤ j ∧ j < bhi := by
        have := List.of_mem_filter hj
        simp only [Bool.and_eq_true, decide_eq_true_eq] at this
        exact this
      have hk : kval st.1 j ≤ i + 1 - alo ∧ kval st.1 j ≤ j + 1 - blo := by
        by_cases hj0 : j = 0
        · subst hj0
          rw [show kval st.1 0 = 1 from by simp [kval]]
          omega
        · rw [show kval st.1 j = st.1 (j - 1) + 1 from by simp [kval, hj0]]
          by_cases hz : st.1 (j - 1) = 0
          · rw [hz]; omega
          · have := hp.1 (j - 1) hz
            omega
      constructor
      · intro j2 hj2
        rw [seedInner_fst] at hj2 ⊢
        by_cases hjj : j2 = j
        · subst hjj
          simp only [if_pos rfl] at hj2 ⊢
          exact ⟨hjw.1, hjw.2, hk.2, hk.1⟩
        · simp only [if_neg hjj] at hj2 ⊢
          exact hp2.1 j2 hj2
      · by_cases hfire : st2.2.bs < kval st.1 j
        · rw [seedInner_snd_fire _ _ _ _ hfire]
          refine ⟨by simp; omega, by simp; omega, by simp; omega, by simp; omega⟩
        · rw [seedInner_snd_noFire _ _ _ _ hfire]
          exact hp2.2
    exact foldl_preserve
      (fun st2 => MapInv blo bhi (i + 1 - alo) st2.1 ∧ BestInv alo ahi blo bhi st2.2)
      (seedInner st.1 i)
      ((b2j b (a.getD i ' ')).filter (fun j => blo ≤ j && j < bhi))
      ((fun _ => 0), st.2) hinit hstep2
  have h0 : MapInv blo bhi (alo - alo) (fun _ : ℕ => (0 : ℕ))
      ∧ BestInv alo ahi blo bhi ⟨alo, blo, 0⟩ := by
    constructor
    · intro j hj; simp at hj
    · exact ⟨le_rfl, by simpa using hA, le_rfl, by simpa using hB⟩
  have key := foldl_range'_ind
    (fun i st => MapInv blo bhi (i - alo) st.1 ∧ BestInv alo ahi blo bhi st.2)
    (seedStep a b blo bhi) (ahi - alo) alo ((fun _ => 0), ⟨alo, blo, 0⟩) h0 hstep
  exact key.2

lemma extendBackAux_bounds (a b : List Char) (alo ahi blo bhi : ℕ) :
    ∀ (fuel bi bj bs : ℕ), alo ≤ bi → bi + bs ≤ ahi → blo ≤ bj → bj + bs ≤ bhi →
      BestInv alo ahi blo bhi
        ⟨(extendBackAux a b alo blo fuel bi bj bs).1,
         (extendBackAux a b alo blo fuel bi bj bs).2.1,
         (extendBackAux a b alo blo fuel bi bj bs).2.2⟩ := by
  intro fuel
  induction fuel with
  | zero => intro bi bj bs h1 h2 h3 h4; exact ⟨h1, h2, h3, h4⟩
  | succ fuel ih =>
      intro bi bj bs h1 h2 h3 h4
      rw [extendBackAux]
      split
      · rename_i hc
        exact ih (bi - 1) (bj - 1) (bs + 1) (by omega) (by omega) (by omega) (by omega)
      · exact ⟨h1, h2, h3, h4⟩

lemma extendFwdAux_bounds (a b : List Char) (ahi bhi bi bj : ℕ) :
    ∀ (fuel bs : ℕ), bi + bs ≤ ahi → bj + bs ≤ bhi →
      bs ≤ extendFwdAux a b ahi bhi bi bj fuel bs
      ∧ bi + extendFwdAux a b ahi bhi bi bj fuel bs ≤ ahi
      ∧ bj + extendFwdAux a b ahi bhi bi bj fuel bs ≤ bhi := by
  intro fuel
  induction fuel with
  | zero => intro bs h1 h2; exact ⟨le_rfl, h1, h2⟩
  | succ fuel ih =>
      intro bs h1 h2
      rw [extendFwdAux]
      split
      · rename_i hc
        have := ih (bs + 1) (by omega) (by omega)
        exact ⟨by omega, this.2.1, this.2.2⟩
      · exact ⟨le_rfl, h1, h2⟩

lemma extendBackJunkAux_id (a b : List Char) (alo blo : ℕ) :
    ∀ (fuel bi bj bs : ℕ),
      extendBackJunkAux a b alo blo fuel bi bj bs = (bi, bj, bs) := by
  intro fuel
  cases fuel with
  | zero => intro bi bj bs; rfl
  | succ fuel =>
      intro bi bj bs
      rw [extendBackJunkAux]
      simp [bjunkMem]

lemma extendFwdJunkAux_id (a b : List Char) (ahi bhi bi bj : ℕ) :
    ∀ (fuel bs : ℕ), extendFwdJunkAux a b ahi bhi bi bj fuel bs = bs := by
  intro fuel
  cases fuel with
  | zero => intro bs; rfl
  | succ fuel =>
      intro bs
      rw [extendFwdJunkAux]
      simp [bjunkMem]

lemma findLongestMatch_bounds (a b : List Char) (alo ahi blo bhi : ℕ)
    (hA : alo ≤ ahi) (hB : blo ≤ bhi) :
    BestInv alo ahi blo bhi (findLongestMatch a b alo ahi blo bhi) := by
  obtain ⟨s1, s2, s3, s4⟩ := seedLoop_bounds a b alo ahi blo bhi hA hB
  unfold findLongestMatch extendBack extendFwd extendBackJunk extendFwdJunk
  simp only [extendBackJunkAux_id, extendFwdJunkAux_id]
  set S := seedLoop a b alo ahi blo bhi with hS
  obtain ⟨b1, b2, b3, b4⟩ :=
    extendBackAux_bounds a b alo ahi blo bhi S.bi S.bi S.bj S.bs s1 s2 s3 s4
  set E := extendBackAux a b alo blo S.bi S.bi S.bj S.bs with hE
  have hf := extendFwdAux_bounds a b ahi bhi E.1 E.2.1
    (ahi - (E.1 + E.2.2)) E.2.2 b2 b4
  exact ⟨b1, hf.2.1, b3, hf.2.2⟩

/-! ### The matched total is at most each window size -/

lemma matchesTotalF_le (a b : List Char) :
    ∀ (fuel alo ahi blo bhi : ℕ), alo ≤ ahi → blo ≤ bhi →
      matchesTotalF a b fuel alo ahi blo bhi ≤ ahi - alo
      ∧ matchesTotalF a b fuel alo ahi blo bhi ≤ bhi - blo := by
  intro fuel
  induction fuel with
  | zero => intro alo ahi blo bhi _ _; constructor <;> simp [matchesTotalF]
  | succ fuel ih =>
      intro alo ahi blo bhi hA hB
      have hm := findLongestMatch_bounds a b alo ahi blo bhi hA hB
      obtain ⟨m1, m2, m3, m4⟩ := hm
      rw [matchesTotalF]
      split
      · constructor <;> omega
      · have hl := ih alo (findLongestMatch a b alo ahi blo bhi).bi
          blo (findLongestMatch a b alo ahi blo bhi).bj m1 m3
        have hr := ih ((findLongestMatch a b alo ahi blo bhi).bi
            + (findLongestMatch a b alo ahi blo bhi).bs) ahi
          ((findLongestMatch a b alo ahi blo bhi).bj
            + (findLongestMatch a b alo ahi blo bhi).bs) bhi (by omega) (by omega)
        constructor <;> omega

lemma matchesTotal_le (a b : List Char) :
    matchesTotal a b ≤ a.length ∧ matchesTotal a b ≤ b.length := by
  have := matchesTotalF_le a b (a.length + b.length + 1) 0 a.length 0 b.length
    (by omega) (by omega)
  simpa [matchesTotal] using this

/-! ### Self-comparison: the seed loop stays on the diagonal

For `SequenceMatcher(None, t, t)` over the full window, the best seed match
always has `besti = bestj`: chains are bounded by the runs of non-popular
characters, the strict-improvement update can only fire on the diagonal
entry of the current row, and ties never displace the diagonal (ascending
column order).  The extension loops then stretch any diagonal seed to the
whole string. -/

lemma runLen_pop (t : List Char) (i : ℕ)
    (h : isPopular t (t.getD i ' ') = true) : runLen t i = 0 := by
  cases i <;> simp only [runLen] <;> rw [h] <;> rfl

lemma runLen_nonpop_zero (t : List Char)
    (h : isPopular t (t.getD 0 ' ') = false) : runLen t 0 = 1 := by
  simp only [runLen]
  rw [h]
  rfl

lemma runLen_nonpop_succ (t : List Char) (i : ℕ)
    (h : isPopular t (t.getD (i + 1) ' ') = false) :
    runLen t (i + 1) = runLen t i + 1 := by
  simp only [runLen]
  rw [h]
  rfl

lemma runLen_eq_rowBound_succ (t : List Char) (i : ℕ)
    (h : isPopular t (t.getD i ' ') = false) :
    runLen t i = rowBound t i + 1 := by
  cases i with
  | zero =>
      simp only [runLen, rowBound]
      rw [h]
      rfl
  | succ i =>
      simp only [runLen, rowBound]
      rw [h]
      rfl

lemma b2j_pop (b : List Char) (c : Char) (h : isPopular b c = true) :
    b2j b c = [] := by
  simp [b2j, h]

lemma b2j_nonpop (b : List Char) (c : Char) (h : isPopular b c = false) :
    b2j b c = idxList b c := by
  simp [b2j, h]

lemma mem_idxList (b : List Char) (c : Char) (j : ℕ) :
    j ∈ idxList b c ↔ j < b.length ∧ b.get? j = some c := by
  simp [idxList, List.mem_filter, List.mem_range]

lemma getD_of_get? {t : List Char} {j : ℕ} {c : Char}
    (h : t.get? j = some c) : t.getD j ' ' = c := by
  rw [List.getD_eq_getD_get?, h]
  rfl

lemma filter_window_full (b : List Char) (c : Char) :
    (b2j b c).filter (fun j => 0 ≤ j && j < b.length) = b2j b c := by
  apply List.filter_eq_self.mpr
  intro j hj
  unfold b2j at hj
  split at hj
  · simp at hj
  · have := ((mem_idxList b c j).mp hj).1
    simp [this]

lemma idxList_split (t : List Char) (c : Char) (i : ℕ) (hi : i < t.length)
    (hc : t.get? i = some c) :
    idxList t c
      = (List.range i).filter (fun j => t.get? j = some c)
        ++ i :: (List.range' (i + 1) (t.length - (i + 1))).filter
            (fun j => t.get? j = some c) := by
  have hr : List.range t.length
      = List.range i ++ i :: List.range' (i + 1) (t.length - (i + 1)) := by
    rw [List.range_eq_range', List.range_eq_range']
    have h1 := List.range'_append 0 i (t.length - i) 1
    simp only [Nat.one_mul, Nat.zero_add] at h1
    have h2 : t.length - i + i = t.length := by omega
    rw [h2] at h1
    rw [← h1]
    congr 1
    have h3 : t.length - i = (t.length - (i + 1)) + 1 := by omega
    rw [h3, List.range'_succ]
  unfold idxList
  have hdec : decide (t.get? i = some c) = true := by
    rw [hc]
    simp
  rw [hr, List.filter_append, List.filter_cons, hdec]
  rfl

lemma seedStep_self_inv (t : List Char) (i : ℕ) (st : (ℕ → ℕ) × Best)
    (hin : i < t.length)
    (hI1 : ∀ j, st.1 j ≤ runLen t j)
    (hI2 : ∀ j, st.1 j ≤ rowBound t i)
    (hI3 : ∀ i2, i = i2 + 1 → st.1 i2 = runLen t i2)
    (hI4 : st.2.bi = st.2.bj)
    (hI5 : ∀ y, y < i → runLen t y ≤ st.2.bs) :
    (∀ j, (seedStep t t 0 t.length st i).1 j ≤ runLen t j)
    ∧ (∀ j, (seedStep t t 0 t.length st i).1 j ≤ rowBound t (i + 1))
    ∧ (∀ i2, i + 1 = i2 + 1 → (seedStep t t 0 t.length st i).1 i2 = runLen t i2)
    ∧ (seedStep t t 0 t.length st i).2.bi = (seedStep t t 0 t.length st i).2.bj
    ∧ (∀ y, y < i + 1 → runLen t y ≤ (seedStep t t 0 t.length st i).2.bs) := by
  by_cases hpop : isPopular t (t.getD i ' ') = true
  · have hempty : (b2j t (t.getD i ' ')).filter
        (fun j => 0 ≤ j && j < t.length) = [] := by
      rw [b2j_pop t _ hpop]
      rfl
    have hres : seedStep t t 0 t.length st i = ((fun _ => 0), st.2) := by
      unfold seedStep
      rw [hempty]
      rfl
    rw [hres]
    refine ⟨fun j => by simp, fun j => by simp, ?_, hI4, ?_⟩
    · intro i2 hi2
      have he : i2 = i := by omega
      rw [he, runLen_pop t i hpop]
    · intro y hy
      rcases Nat.lt_succ_iff_lt_or_eq.mp hy with h | h
      · exact hI5 y h
      · rw [h, runLen_pop t i hpop]
        omega
  · have hpop' : isPopular t (t.getD i ' ') = false := by
      simpa using hpop
    set c := t.getD i ' ' with hc
    have hci : t.get? i = some c := by
      rw [hc, List.get?_eq_getElem?, List.getElem?_eq_getElem hin,
        List.getD_eq_getElem t ' ' hin]
    have hJ : (b2j t c).filter (fun j => 0 ≤ j && j < t.length) = idxList t c := by
      rw [filter_window_full, b2j_nonpop t c hpop']
    -- chain values are bounded by the run at their own column
    have hkle : ∀ j, t.get? j = some c → kval st.1 j ≤ runLen t j := by
      intro j hj
      have hnp : isPopular t (t.getD j ' ') = false := by
        rw [getD_of_get? hj]
        exact hpop'
      cases j with
      | zero =>
          rw [show kval st.1 0 = 1 from by simp [kval], runLen_nonpop_zero t hnp]
      | succ j2 =>
          rw [show kval st.1 (j2 + 1) = st.1 j2 + 1 from by simp [kval],
            runLen_nonpop_succ t j2 hnp]
          exact Nat.succ_le_succ (hI1 j2)
    -- chain values are bounded by the run at the current row
    have hkrow : ∀ j, kval st.1 j ≤ runLen t i := by
      intro j
      have hrb : runLen t i = rowBound t i + 1 := runLen_eq_rowBound_succ t i hpop'
      cases j with
      | zero => rw [show kval st.1 0 = 1 from by simp [kval]]; omega
      | succ j2 =>
          rw [show kval st.1 (j2 + 1) = st.1 j2 + 1 from by simp [kval]]
          have := hI2 j2
          omega
    -- the diagonal chain value is exactly the run at the current row
    have hki : kval st.1 i = runLen t i := by
      cases i with
      | zero =>
          rw [show kval st.1 0 = 1 from by simp [kval],
            runLen_nonpop_zero t (by rwa [← hc])]
      | succ i2 =>
          rw [show kval st.1 (i2 + 1) = st.1 i2 + 1 from by simp [kval],
            hI3 i2 rfl, runLen_nonpop_succ t i2 (by rwa [← hc])]
    have hmap : ∀ j2, (seedStep t t 0 t.length st i).1 j2
        = if j2 ∈ (b2j t c).filter (fun j => 0 ≤ j && j < t.length)
          then kval st.1 j2 else 0 := by
      intro j2
      unfold seedStep
      rw [← hc, seedInner_foldl_fst]
    have hmem : ∀ j2, j2 ∈ (b2j t c).filter (fun j => 0 ≤ j && j < t.length)
        → t.get? j2 = some c := by
      intro j2 h2
      rw [hJ] at h2
      exact ((mem_idxList t c j2).mp h2).2
    -- best evolution: split the column list around the diagonal
    have hbest : (seedStep t t 0 t.length st i).2.bi
          = (seedStep t t 0 t.length st i).2.bj
        ∧ runLen t i ≤ (seedStep t t 0 t.length st i).2.bs
        ∧ st.2.bs ≤ (seedStep t t 0 t.length st i).2.bs := by
      have hsplit := idxList_split t c i hin hci
      unfold seedStep
      rw [← hc, hJ, hsplit, List.foldl_append, List.foldl_cons]
      set F1 := (List.range i).filter (fun j => t.get? j = some c) with hF1
      set F2 := (List.range' (i + 1) (t.length - (i + 1))).filter
        (fun j => t.get? j = some c) with hF2
      have hA : (F1.foldl (seedInner st.1 i) ((fun _ => 0), st.2)).2 = st.2 := by
        apply seedInner_foldl_noFire
        intro j hj
        have hj2 := List.of_mem_filter hj
        simp only [decide_eq_true_eq] at hj2
        have hjlt : j < i := List.mem_range.mp (List.mem_of_mem_filter hj)
        exact le_trans (hkle j hj2) (hI5 j hjlt)
      set st1 := F1.foldl (seedInner st.1 i) ((fun _ => 0), st.2) with hst1
      have hB : (seedInner st.1 i st1 i).2.bi = (seedInner st.1 i st1 i).2.bj
          ∧ runLen t i ≤ (seedInner st.1 i st1 i).2.bs
          ∧ st.2.bs ≤ (seedInner st.1 i st1 i).2.bs := by
        by_cases hfire : st1.2.bs < kval st.1 i
        · rw [seedInner_snd_fire _ _ _ _ hfire]
          refine ⟨rfl, by simp [hki], ?_⟩
          simp only
          rw [hA] at hfire
          omega
        · rw [seedInner_snd_noFire _ _ _ _ hfire]
          rw [hA] at hfire ⊢
          exact ⟨hI4, by omega, le_rfl⟩
      set st2 := seedInner st.1 i st1 i with hst2
      have hC : (F2.foldl (seedInner st.1 i) st2).2 = st2.2 := by
        apply seedInner_foldl_noFire
        intro j hj
        exact le_trans (hkrow j) hB.2.1
      rw [hC]
      exact hB
    refine ⟨?_, ?_, ?_, hbest.1, ?_⟩
    · intro j
      rw [hmap j]
      split
      · rename_i hj
        exact hkle j (hmem j hj)
      · exact Nat.zero_le _
    · intro j
      rw [hmap j]
      have hrb : rowBound t (i + 1) = runLen t i := rfl
      split
      · rw [hrb]
        exact hkrow j
      · simp
    · intro i2 hi2
      have he : i2 = i := by omega
      rw [he, hmap i]
      have hiJ : i ∈ (b2j t c).filter (fun j => 0 ≤ j && j < t.length) := by
        rw [hJ, mem_idxList]
        exact ⟨hin, hci⟩
      rw [if_pos hiJ]
      exact hki
    · intro y hy
      rcases Nat.lt_succ_iff_lt_or_eq.mp hy with h | h
      · exact le_trans (hI5 y h) hbest.2.2
      · subst h
        exact hbest.2.1

lemma seedLoop_self_diag (t : List Char) :
    (seedLoop t t 0 t.length 0 t.length).bi
      = (seedLoop t t 0 t.length 0 t.length).bj := by
  have key := foldl_range'_ind
    (fun i st => (∀ j, st.1 j ≤ runLen t j) ∧ (∀ j, st.1 j ≤ rowBound t i)
      ∧ (∀ i2, i = i2 + 1 → st.1 i2 = runLen t i2)
      ∧ st.2.bi = st.2.bj ∧ (∀ y, y < i → runLen t y ≤ st.2.bs))
    (seedStep t t 0 t.length) (t.length - 0) 0
    ((fun _ => 0), ⟨0, 0, 0⟩)
    ⟨fun j => Nat.zero_le _, fun j => Nat.zero_le _,
      fun i2 h => by omega, rfl, fun y hy => by omega⟩
    (by
      intro i st hi1 hi2 hp
      exact seedStep_self_inv t i st (by omega) hp.1 hp.2.1 hp.2.2.1
        hp.2.2.2.1 hp.2.2.2.2)
  exact key.2.2.2.1

/-! ### Extension phases on the diagonal, and the self-match total -/

lemma extendBackAux_diag (t : List Char) :
    ∀ (x bs : ℕ), extendBackAux t t 0 0 x x x bs = (0, 0, bs + x) := by
  intro x
  induction x with
  | zero => intro bs; rfl
  | succ x ih =>
      intro bs
      rw [extendBackAux, if_pos ⟨Nat.succ_pos x, Nat.succ_pos x, rfl, rfl⟩]
      simp only [Nat.add_sub_cancel]
      rw [ih (bs + 1)]
      have he : bs + 1 + x = bs + (x + 1) := by omega
      rw [he]

lemma extendFwdAux_diag (t : List Char) (n : ℕ) :
    ∀ (f s : ℕ), s + f = n → extendFwdAux t t n n 0 0 f s = n := by
  intro f
  induction f with
  | zero =>
      intro s h
      show s = n
      omega
  | succ f ih =>
      intro s h
      rw [extendFwdAux, if_pos ⟨by omega, by omega, rfl, rfl⟩]
      exact ih (s + 1) (by omega)

lemma extendBackAux_stop (a b : List Char) (alo blo fuel bi bj bs : ℕ)
    (h : ¬ alo < bi) :
    extendBackAux a b alo blo fuel bi bj bs = (bi, bj, bs) := by
  cases fuel with
  | zero => rfl
  | succ f =>
      rw [extendBackAux, if_neg]
      intro hc
      exact h hc.1

lemma extendFwdAux_stop (a b : List Char) (ahi bhi bi bj fuel bs : ℕ)
    (h : ¬ bi + bs < ahi) :
    extendFwdAux a b ahi bhi bi bj fuel bs = bs := by
  cases fuel with
  | zero => rfl
  | succ f =>
      rw [extendFwdAux, if_neg]
      intro hc
      exact h hc.1

lemma findLongestMatch_self (t : List Char) :
    findLongestMatch t t 0 t.length 0 t.length = ⟨0, 0, t.length⟩ := by
  have hdiag := seedLoop_self_diag t
  obtain ⟨s1, s2, s3, s4⟩ :=
    seedLoop_bounds t t 0 t.length 0 t.length (by omega) (by omega)
  unfold findLongestMatch extendBack extendFwd extendBackJunk extendFwdJunk
  simp only [extendBackJunkAux_id, extendFwdJunkAux_id]
  set S := seedLoop t t 0 t.length 0 t.length with hS
  rw [← hdiag, extendBackAux_diag t S.bi S.bs]
  show Best.mk 0 0 (extendFwdAux t t t.length t.length 0 0
      (t.length - (0 + (S.bs + S.bi))) (S.bs + S.bi)) = ⟨0, 0, t.length⟩
  rw [extendFwdAux_diag t t.length (t.length - (0 + (S.bs + S.bi)))
    (S.bs + S.bi) (by omega)]

lemma findLongestMatch_empty (a b : List Char) (x y : ℕ) :
    findLongestMatch a b x x y y = ⟨x, y, 0⟩ := by
  have hseed : seedLoop a b x x y y = ⟨x, y, 0⟩ := by
    unfold seedLoop
    rw [Nat.sub_self]
    rfl
  unfold findLongestMatch extendBack extendFwd extendBackJunk extendFwdJunk
  simp only [extendBackJunkAux_id, extendFwdJunkAux_id, hseed]
  rw [extendBackAux_stop a b x y x x y 0 (by omega)]
  show Best.mk x y (extendFwdAux a b x y x y (x - (x + 0)) 0) = ⟨x, y, 0⟩
  rw [extendFwdAux_stop a b x y x y (x - (x + 0)) 0 (by omega)]

lemma matchesTotalF_empty (a b : List Char) (fuel x y : ℕ) :
    matchesTotalF a b fuel x x y y = 0 := by
  cases fuel with
  | zero => rfl
  | succ f =>
      simp [matchesTotalF, findLongestMatch_empty]

lemma matchesTotal_self (t : List Char) : matchesTotal t t = t.length := by
  unfold matchesTotal
  simp only [matchesTotalF, findLongestMatch_self]
  by_cases h : t.length = 0
  · simp [h]
  · rw [if_neg h]
    simp only [Nat.zero_add, Nat.add_zero]
    rw [matchesTotalF_empty, matchesTotalF_empty]
    omega

lemma ratioQ_self (t : List Char) (h : t.length ≠ 0) : ratioQ t t = 1 := by
  unfold ratioQ
  rw [if_neg (by omega), matchesTotal_self]
  have hne : ((t.length + t.length : ℕ) : ℚ) ≠ 0 := by
    exact_mod_cast (by omega : t.length + t.length ≠ 0)
  rw [div_eq_one_iff_eq hne]
  push_cast
  ring

lemma data_ne_nil_of_ne_empty {s : String} (hs : s ≠ "") : s.data ≠ [] := by
  intro hd
  apply hs
  cases s with
  | mk d =>
      simp at hd
      subst hd
      rfl

lemma ratioQ_bounds (a b : List Char) (hT : a.length + b.length ≠ 0) :
    0 ≤ ratioQ a b ∧ ratioQ a b ≤ 1 := by
  have hM := matchesTotal_le a b
  unfold ratioQ
  rw [if_neg hT]
  have hTpos : (0 : ℚ) < ((a.length + b.length : ℕ) : ℚ) := by
    exact_mod_cast Nat.pos_of_ne_zero hT
  constructor
  · apply div_nonneg _ (le_of_lt hTpos)
    positivity
  · rw [div_le_one hTpos]
    have h2 : 2 * matchesTotal a b ≤ a.length + b.length := by omega
    calc 2 * (matchesTotal a b : ℚ) = ((2 * matchesTotal a b : ℕ) : ℚ) := by push_cast; ring
    _ ≤ ((a.length + b.length : ℕ) : ℚ) := by exact_mod_cast h2

/-- C5: self-similarity is `100` for every non-empty string (the seed phase
of `find_longest_match` keeps its best match on the diagonal and the
extension loops stretch it over the whole string, popular characters
included); similarity with an empty string on either side is `0`; and the
result always lies in `[0, 100]`. -/
theorem similarity_self_empty_range :
    (∀ s : String, s ≠ "" → calculate_text_similarity s s = 100) ∧
    (∀ x : String, calculate_text_similarity "" x = 0
      ∧ calculate_text_similarity x "" = 0) ∧
    (∀ x y : String, 0 ≤ calculate_text_similarity x y
      ∧ calculate_text_similarity x y ≤ 100) := by
  refine ⟨?_, ?_, ?_⟩
  · intro s hs
    have hlen : (lowerList s).length ≠ 0 := by
      simp only [lowerList, List.length_map]
      intro h0
      exact data_ne_nil_of_ne_empty hs (List.length_eq_zero.mp h0)
    unfold calculate_text_similarity
    rw [if_neg (by simp [hs]), ratioQ_self (lowerList s) hlen]
    norm_num
  · intro x
    constructor <;> simp [calculate_text_similarity]
  · intro x y
    by_cases hx : x = ""
    · simp [calculate_text_similarity, hx]
    · by_cases hy : y = ""
      · simp [calculate_text_similarity, hy]
      · have hT : (lowerList x).length + (lowerList y).length ≠ 0 := by
          simp only [lowerList, List.length_map]
          intro h0
          exact data_ne_nil_of_ne_empty hx (List.length_eq_zero.mp (by omega))
        have hb := ratioQ_bounds (lowerList x) (lowerList y) hT
        unfold calculate_text_similarity
        rw [if_neg (by simp [hx, hy])]
        constructor
        · nlinarith [hb.1]
        · nlinarith [hb.1, hb.2]

/-- Witness for `similarity_self_empty_range`: a concrete non-empty string
has self-similarity `100`. -/
theorem similarity_self_empty_range_witness :
    calculate_text_similarity "abc" "abc" = 100 :=
  similarity_self_empty_range.1 "abc" (by decide)

end Comparativas
